import Mathlib

/-!
Verification of the Blockchain_24 repository: a transaction-pool sub-pool
management and eviction engine (spec §2–§4), together with its peripheral
utilities (benchmark transaction generation, test wallet derivation, and the
Ethereum hardfork helpers).

The sub-pool container and the truncation/eviction engine live in the
`reth_transaction_pool` crate; the repository holds their benchmark harness
(`benches/truncate.rs`).  The container and engine are therefore modelled
from the spec (§4.2–§4.3), while `create_transactions_for_sender`,
`generate_many_transactions`, `Wallet::gen` and `is_paris_active_at_block`
are embedded from the repository sources.
-/

namespace Blockchain24

/-- Capacity configuration of a sub-pool (spec §3 `SubPoolLimit`):
maximum transaction count and maximum cumulative byte size. -/
structure SubPoolLimit where
  max_txs : Nat
  max_size : Nat
deriving DecidableEq, Repr

/-- A resident pool transaction (spec §3 `ValidatedTransaction`): sender
address, nonce, encoded byte size, its priority under the sub-pool's active
ordering (`rank`, higher ranks first), and the arrival sequence number used
as the deterministic tie-break (`seq`). -/
structure PoolTx where
  sender : Nat
  nonce : Nat
  size : Nat
  rank : Nat
  seq : Nat
deriving DecidableEq, Repr

/-- Cumulative encoded byte size of the resident transactions. -/
def poolBytes (pool : List PoolTx) : Nat :=
  (pool.map (fun t => t.size)).sum

/-- Modelled from the spec (§4.3): `t` is a sender's current "chain tail",
i.e. no transaction of the same sender resident in the pool has a strictly
larger nonce. -/
def isTail (pool : List PoolTx) (t : PoolTx) : Bool :=
  pool.all (fun u => decide (u.sender ≠ t.sender) || decide (u.nonce ≤ t.nonce))

/-- Modelled from the spec (§4.3): the removal-candidate set, containing for
every sender with at least one resident transaction that sender's current
tail. -/
def tails (pool : List PoolTx) : List PoolTx :=
  pool.filter (fun t => isTail pool t)

/-- Modelled from the spec (§4.1): `a` is strictly worse than `b` under the
sub-pool's ordering — lower rank, or equal rank and later arrival (the
tie-break is arrival sequence number, ascending). -/
def worseThan (a b : PoolTx) : Bool :=
  decide (a.rank < b.rank) || (decide (a.rank = b.rank) && decide (b.seq < a.seq))

/-- The lowest-ranked candidate across all senders (spec §4.3 step a). -/
def selectWorst : List PoolTx → Option PoolTx
  | [] => none
  | t :: ts =>
    match selectWorst ts with
    | none => some t
    | some w => if worseThan w t then some w else some t

/-- Modelled from the spec (§4.3): the eviction loop.  While the count
exceeds `max_txs` or the cumulative size exceeds `max_size` and the pool is
non-empty, remove the lowest-ranked candidate tail.  `fuel` bounds the
number of iterations; `truncate_pool` supplies the pool size, which
suffices since every round removes one transaction.  Returns the remaining
pool and the ordered list of removed transactions. -/
def truncateGo (limit : SubPoolLimit) : Nat → List PoolTx → List PoolTx × List PoolTx
  | 0, pool => (pool, [])
  | Nat.succ fuel, pool =>
    if pool.length ≤ limit.max_txs ∧ poolBytes pool ≤ limit.max_size then
      (pool, [])
    else
      match selectWorst (tails pool) with
      | none => (pool, [])
      | some w =>
        let r := truncateGo limit fuel (pool.erase w)
        (r.1, w :: r.2)

/-- Modelled from the spec (§4.2–§4.3): `truncate_pool(limit)` enforces the
capacity limit on a sub-pool, returning the remaining pool and the removed
transactions in eviction order. -/
def truncate_pool (limit : SubPoolLimit) (pool : List PoolTx) : List PoolTx × List PoolTx :=
  truncateGo limit pool.length pool

theorem selectWorst_mem {l : List PoolTx} {t : PoolTx} (h : selectWorst l = some t) :
    t ∈ l := by
  induction l with
  | nil => simp [selectWorst] at h
  | cons a as ih =>
    simp only [selectWorst] at h
    cases hs : selectWorst as with
    | none => rw [hs] at h; simp at h; simp [h]
    | some w =>
      rw [hs] at h
      by_cases hw : worseThan w a = true
      · simp [hw] at h; subst h; exact List.mem_cons_of_mem _ (ih hs)
      · simp [hw] at h; simp [h]

theorem selectWorst_eq_none {l : List PoolTx} (h : selectWorst l = none) : l = [] := by
  cases l with
  | nil => rfl
  | cons a as =>
    simp only [selectWorst] at h
    cases hs : selectWorst as with
    | none => rw [hs] at h; simp at h
    | some w => rw [hs] at h; by_cases hw : worseThan w a = true <;> simp [hw] at h

theorem exists_max_nonce (l : List PoolTx) (h : l ≠ []) :
    ∃ m ∈ l, ∀ x ∈ l, x.nonce ≤ m.nonce := by
  induction l with
  | nil => exact absurd rfl h
  | cons a as ih =>
    cases as with
    | nil => exact ⟨a, List.mem_singleton.2 rfl, by intro x hx; simp at hx; simp [hx]⟩
    | cons b bs =>
      obtain ⟨m, hm, hmax⟩ := ih (by simp)
      by_cases hc : a.nonce ≤ m.nonce
      · refine ⟨m, List.mem_cons_of_mem _ hm, ?_⟩
        intro x hx
        rcases List.mem_cons.1 hx with rfl | hx
        · exact hc
        · exact hmax x hx
      · refine ⟨a, List.mem_cons_self _ _, ?_⟩
        intro x hx
        rcases List.mem_cons.1 hx with rfl | hx
        · exact le_rfl
        · exact le_trans (hmax x hx) (le_of_not_le hc)

theorem mem_tails_iff {pool : List PoolTx} {t : PoolTx} :
    t ∈ tails pool ↔ t ∈ pool ∧ ∀ u ∈ pool, u.sender = t.sender → u.nonce ≤ t.nonce := by
  constructor
  · intro h
    have h' := List.mem_filter.1 h
    refine ⟨h'.1, ?_⟩
    intro u hu hs
    have := (List.all_eq_true.1 h'.2) u hu
    simp only [Bool.or_eq_true, decide_eq_true_eq] at this
    rcases this with hne | hle
    · exact absurd hs hne
    · exact hle
  · intro ⟨hmem, hmax⟩
    refine List.mem_filter.2 ⟨hmem, ?_⟩
    refine List.all_eq_true.2 ?_
    intro u hu
    simp only [Bool.or_eq_true, decide_eq_true_eq]
    by_cases hs : u.sender = t.sender
    · exact Or.inr (hmax u hu hs)
    · exact Or.inl hs

theorem tails_ne_nil {pool : List PoolTx} (h : pool ≠ []) : tails pool ≠ [] := by
  cases pool with
  | nil => exact absurd rfl h
  | cons p ps =>
    set pool := p :: ps with hpool
    have hpmem : p ∈ pool := List.mem_cons_self _ _
    have hSne : pool.filter (fun u => decide (u.sender = p.sender)) ≠ [] := by
      intro hnil
      have : p ∈ pool.filter (fun u => decide (u.sender = p.sender)) :=
        List.mem_filter.2 ⟨hpmem, by simp⟩
      rw [hnil] at this
      exact List.not_mem_nil _ this
    obtain ⟨m, hmS, hmax⟩ := exists_max_nonce _ hSne
    have hmPool : m ∈ pool := (List.mem_filter.1 hmS).1
    have hmSender : m.sender = p.sender := by
      have := (List.mem_filter.1 hmS).2; simpa using this
    have : m ∈ tails pool := by
      refine mem_tails_iff.2 ⟨hmPool, ?_⟩
      intro u hu hs
      exact hmax u (List.mem_filter.2 ⟨hu, by simp [hs, hmSender]⟩)
    intro hnil
    rw [hnil] at this
    exact List.not_mem_nil _ this

theorem truncateGo_limits (limit : SubPoolLimit) :
    ∀ fuel pool, pool.length ≤ fuel →
      (truncateGo limit fuel pool).1 = [] ∨
      ((truncateGo limit fuel pool).1.length ≤ limit.max_txs ∧
        poolBytes (truncateGo limit fuel pool).1 ≤ limit.max_size) := by
  intro fuel
  induction fuel with
  | zero =>
    intro pool hlen
    have : pool = [] := List.eq_nil_of_length_eq_zero (Nat.le_zero.1 hlen)
    subst this
    simp [truncateGo]
  | succ n ih =>
    intro pool hlen
    by_cases hok : pool.length ≤ limit.max_txs ∧ poolBytes pool ≤ limit.max_size
    · right
      simp only [truncateGo, if_pos hok]
      exact hok
    · cases hw : selectWorst (tails pool) with
      | none =>
        left
        have hnil : pool = [] := by
          by_contra hne
          exact tails_ne_nil hne (selectWorst_eq_none hw)
        simp only [truncateGo, if_neg hok, hw]
        exact hnil
      | some w =>
        have hwmem : w ∈ pool := (mem_tails_iff.1 (selectWorst_mem hw)).1
        have herase : (pool.erase w).length ≤ n := by
          rw [List.length_erase_of_mem hwmem]
          omega
        have := ih (pool.erase w) herase
        simpa only [truncateGo, if_neg hok, hw] using this

/-- Spec §3 sender-chain invariant: within a sub-pool, every resident
nonce with a strictly smaller resident nonce of the same sender has its
predecessor nonce resident — equivalently, each sender's resident nonces
form a contiguous ascending run with no gap. -/
def noGaps (pool : List PoolTx) : Prop :=
  ∀ t ∈ pool, ∀ u ∈ pool, u.sender = t.sender → u.nonce < t.nonce →
    ∃ v ∈ pool, v.sender = t.sender ∧ v.nonce + 1 = t.nonce

instance (pool : List PoolTx) : Decidable (noGaps pool) := by
  unfold noGaps; infer_instance

theorem noGaps_erase_tail {pool : List PoolTx} {w : PoolTx}
    (hg : noGaps pool) (hw : w ∈ tails pool) : noGaps (pool.erase w) := by
  intro t ht u hu hs hlt
  have ht' : t ∈ pool := List.mem_of_mem_erase ht
  have hu' : u ∈ pool := List.mem_of_mem_erase hu
  obtain ⟨v, hv, hvs, hvn⟩ := hg t ht' u hu' hs hlt
  have hwtail := mem_tails_iff.1 hw
  have hvne : v ≠ w := by
    intro heq
    subst heq
    have : t.nonce ≤ v.nonce := hwtail.2 t ht' hvs.symm
    omega
  exact ⟨v, (List.mem_erase_of_ne hvne).2 hv, hvs, hvn⟩

theorem truncateGo_noGaps (limit : SubPoolLimit) :
    ∀ fuel pool, noGaps pool → noGaps (truncateGo limit fuel pool).1 := by
  intro fuel
  induction fuel with
  | zero => intro pool hg; simpa [truncateGo] using hg
  | succ n ih =>
    intro pool hg
    by_cases hok : pool.length ≤ limit.max_txs ∧ poolBytes pool ≤ limit.max_size
    · simpa only [truncateGo, if_pos hok] using hg
    · cases hw : selectWorst (tails pool) with
      | none => simpa only [truncateGo, if_neg hok, hw] using hg
      | some w =>
        have hwt : w ∈ tails pool := selectWorst_mem hw
        have := ih (pool.erase w) (noGaps_erase_tail hg hwt)
        simpa only [truncateGo, if_neg hok, hw] using this

theorem truncateGo_removed_nil (limit : SubPoolLimit) (pool : List PoolTx)
    (h : pool = [] ∨ (pool.length ≤ limit.max_txs ∧ poolBytes pool ≤ limit.max_size)) :
    (truncate_pool limit pool).2 = [] := by
  rcases h with rfl | hok
  · simp [truncate_pool, truncateGo]
  · unfold truncate_pool
    cases hp : pool.length with
    | zero => simp [truncateGo]
    | succ n => simp [truncateGo, hok]

/-- C1: after any `truncate_pool(limit)` call, either the sub-pool is empty
or both its transaction count is at most `limit.max_txs` and its cumulative
byte size is at most `limit.max_size`. -/
theorem truncate_pool_enforces_limits (limit : SubPoolLimit) (pool : List PoolTx) :
    (truncate_pool limit pool).1 = [] ∨
    ((truncate_pool limit pool).1.length ≤ limit.max_txs ∧
      poolBytes (truncate_pool limit pool).1 ≤ limit.max_size) :=
  truncateGo_limits limit pool.length pool le_rfl

/-- C2: starting from a sub-pool in which every sender's resident nonces
are contiguous, `truncate_pool` leaves every sender's remaining resident
nonces a contiguous ascending run with no gap (only chain tails are ever
removed). -/
theorem truncate_pool_preserves_noGaps (limit : SubPoolLimit) (pool : List PoolTx)
    (h : noGaps pool) : noGaps (truncate_pool limit pool).1 :=
  truncateGo_noGaps limit pool.length pool h

/-- Witness for C2 at a concrete two-sender pool that exceeds the limit. -/
theorem truncate_pool_preserves_noGaps_witness :
    noGaps [⟨1, 0, 50, 5, 0⟩, ⟨1, 1, 50, 4, 1⟩, ⟨2, 0, 50, 3, 2⟩] ∧
    noGaps (truncate_pool ⟨2, 1000⟩ [⟨1, 0, 50, 5, 0⟩, ⟨1, 1, 50, 4, 1⟩, ⟨2, 0, 50, 3, 2⟩]).1 :=
  ⟨by decide, truncate_pool_preserves_noGaps ⟨2, 1000⟩ _ (by decide)⟩

/-- C3: `truncate_pool` is idempotent — a second call with the same limit
on the pool left by the first performs zero removals. -/
theorem truncate_pool_idempotent (limit : SubPoolLimit) (pool : List PoolTx) :
    (truncate_pool limit (truncate_pool limit pool).1).2 = [] :=
  truncateGo_removed_nil limit _ (truncateGo_limits limit pool.length pool le_rfl)

/-- C6 (spec §8 Scenario A): sender 1 has nonces {0,1,2} resident, each of
100 bytes; truncating with `max_size := 250` removes exactly the nonce-2
transaction, leaving nonces {0,1} resident with a cumulative size of 200
bytes. -/
theorem truncate_pool_scenario_A :
    truncate_pool ⟨10000, 250⟩
        [⟨1, 0, 100, 10, 0⟩, ⟨1, 1, 100, 9, 1⟩, ⟨1, 2, 100, 8, 2⟩] =
      ([⟨1, 0, 100, 10, 0⟩, ⟨1, 1, 100, 9, 1⟩], [⟨1, 2, 100, 8, 2⟩]) ∧
    poolBytes [⟨1, 0, 100, 10, 0⟩, ⟨1, 1, 100, 9, 1⟩] = 200 := by
  constructor
  · rfl
  · rfl

/-- The error taxonomy of the sub-pool container (spec §7). -/
inductive AddError where
  | Underpriced
deriving DecidableEq, Repr

/-- The transaction occupying the (sender, nonce) slot, if any. -/
def findSlot (pool : List PoolTx) (s n : Nat) : Option PoolTx :=
  pool.find? (fun t => decide (t.sender = s) && decide (t.nonce = n))

/-- Modelled from the spec (§4.1): `a` ranks strictly higher than `b` under
the sub-pool's ordering — higher rank, or equal rank and earlier arrival. -/
def ranksHigher (a b : PoolTx) : Bool :=
  decide (b.rank < a.rank) || (decide (a.rank = b.rank) && decide (a.seq < b.seq))

/-- Modelled from the spec (§4.2): `add_transaction` inserts a transaction.
If the (sender, nonce) slot is occupied, the newcomer replaces the incumbent
only if it ranks strictly higher; otherwise the call fails `Underpriced`. -/
def add_transaction (pool : List PoolTx) (tx : PoolTx) : Except AddError (List PoolTx) :=
  match findSlot pool tx.sender tx.nonce with
  | some inc =>
    if ranksHigher tx inc then Except.ok (tx :: pool.erase inc)
    else Except.error AddError.Underpriced
  | none => Except.ok (tx :: pool)

/-- A sub-pool with its incrementally maintained counters (spec §3): the
resident transactions, the reported count and the reported cumulative byte
size; the counters are never recomputed by full scan. -/
structure PoolState where
  txs : List PoolTx
  count : Nat
  size : Nat
deriving DecidableEq, Repr

def PoolState.empty : PoolState := ⟨[], 0, 0⟩

/-- Modelled from the spec (§4.2): insertion with incremental counter
updates.  A replacement keeps the count and adjusts the size by the
difference; a rejected (`Underpriced`) insertion leaves the state
unchanged. -/
def PoolState.addTx (st : PoolState) (tx : PoolTx) : PoolState :=
  match findSlot st.txs tx.sender tx.nonce with
  | some inc =>
    if ranksHigher tx inc then
      { txs := tx :: st.txs.erase inc, count := st.count, size := st.size + tx.size - inc.size }
    else st
  | none => { txs := tx :: st.txs, count := st.count + 1, size := st.size + tx.size }

/-- Modelled from the spec (§4.2): `remove_transaction(id)` removes the
transaction at the (sender, nonce) slot, if resident, updating the
counters. -/
def PoolState.removeTx (st : PoolState) (s n : Nat) : PoolState :=
  match findSlot st.txs s n with
  | some t => { txs := st.txs.erase t, count := st.count - 1, size := st.size - t.size }
  | none => st

/-- One element of a sequence of mutations on a sub-pool. -/
inductive PoolOp where
  | add (tx : PoolTx)
  | remove (s n : Nat)

/-- Run a sequence of add/remove operations from the empty sub-pool. -/
def runOps (ops : List PoolOp) : PoolState :=
  ops.foldl
    (fun st op =>
      match op with
      | PoolOp.add tx => st.addTx tx
      | PoolOp.remove s n => st.removeTx s n)
    PoolState.empty

/-- The counters agree with the actually-resident transactions. -/
def countersOk (st : PoolState) : Prop :=
  st.count = st.txs.length ∧ st.size = poolBytes st.txs

theorem size_le_poolBytes {t : PoolTx} {l : List PoolTx} (h : t ∈ l) :
    t.size ≤ poolBytes l := by
  induction l with
  | nil => simp at h
  | cons a as ih =>
    rcases List.mem_cons.1 h with rfl | h
    · simp [poolBytes]
    · have := ih h
      simp only [poolBytes] at this ⊢
      simp only [List.map_cons, List.sum_cons]
      omega

theorem poolBytes_erase {t : PoolTx} {l : List PoolTx} (h : t ∈ l) :
    poolBytes (l.erase t) = poolBytes l - t.size := by
  have hperm : List.Perm l (t :: l.erase t) := List.perm_cons_erase h
  have hsum : poolBytes l = poolBytes (t :: l.erase t) :=
    List.Perm.sum_eq (List.Perm.map _ hperm)
  simp only [poolBytes, List.map_cons, List.sum_cons] at hsum
  simp only [poolBytes]
  omega

theorem countersOk_addTx {st : PoolState} (h : countersOk st) (tx : PoolTx) :
    countersOk (st.addTx tx) := by
  obtain ⟨hc, hs⟩ := h
  unfold PoolState.addTx
  cases hf : findSlot st.txs tx.sender tx.nonce with
  | none =>
    constructor
    · simp [hc]
    · simp only [poolBytes, List.map_cons, List.sum_cons]
      simp only [poolBytes] at hs
      omega
  | some inc =>
    have hmem : inc ∈ st.txs := List.mem_of_find?_eq_some hf
    have hpos : 0 < st.txs.length := List.length_pos_of_mem hmem
    have he := poolBytes_erase hmem
    have hle := size_le_poolBytes hmem
    by_cases hr : ranksHigher tx inc = true
    · simp only [hr, if_true]
      constructor
      · simp only [List.length_cons, List.length_erase_of_mem hmem]
        omega
      · simp only [poolBytes, List.map_cons, List.sum_cons]
        simp only [poolBytes] at he hle hs
        omega
    · simp only [hr, if_false]
      exact ⟨hc, hs⟩

theorem countersOk_removeTx {st : PoolState} (h : countersOk st) (s n : Nat) :
    countersOk (st.removeTx s n) := by
  obtain ⟨hc, hs⟩ := h
  unfold PoolState.removeTx
  cases hf : findSlot st.txs s n with
  | none => exact ⟨hc, hs⟩
  | some t =>
    have hmem : t ∈ st.txs := List.mem_of_find?_eq_some hf
    have hpos : 0 < st.txs.length := List.length_pos_of_mem hmem
    have he := poolBytes_erase hmem
    have hle := size_le_poolBytes hmem
    constructor
    · simp only [List.length_erase_of_mem hmem]
      omega
    · simp only [he]
      omega

/-- C5: for every finite sequence of add/remove operations starting from
the empty sub-pool, the reported count equals the number of resident
transactions and the reported size equals the sum of their encoded byte
sizes. -/
theorem runOps_counters_match (ops : List PoolOp) :
    (runOps ops).count = (runOps ops).txs.length ∧
    (runOps ops).size = poolBytes (runOps ops).txs := by
  have key : ∀ (l : List PoolOp) (st : PoolState), countersOk st →
      countersOk (l.foldl
        (fun st op =>
          match op with
          | PoolOp.add tx => st.addTx tx
          | PoolOp.remove s n => st.removeTx s n) st) := by
    intro l
    induction l with
    | nil => intro st h; exact h
    | cons op rest ih =>
      intro st h
      cases op with
      | add tx => exact ih _ (countersOk_addTx h tx)
      | remove s n => exact ih _ (countersOk_removeTx h s n)
  exact key ops PoolState.empty ⟨rfl, rfl⟩

/-- Spec §3: transaction identity is (sender, nonce) — no two resident
transactions of a sub-pool share a slot. -/
def slotsUnique (pool : List PoolTx) : Prop :=
  pool.Pairwise (fun a b => a.sender ≠ b.sender ∨ a.nonce ≠ b.nonce)

instance (pool : List PoolTx) : Decidable (slotsUnique pool) := by
  unfold slotsUnique; infer_instance

theorem slotsUnique_nodup {pool : List PoolTx} (h : slotsUnique pool) : pool.Nodup :=
  h.imp (fun hab => by rintro rfl; rcases hab with hs | hn <;> exact absurd rfl (by assumption))

theorem ranksHigher_irrefl (t : PoolTx) : ranksHigher t t = false := by
  simp [ranksHigher]

/-- C4: when the (sender, nonce) slot of the inserted transaction is
occupied, `add_transaction` replaces the incumbent exactly when the
newcomer ranks strictly higher under the pool's ordering: then the call
succeeds, the newcomer is resident and the incumbent is gone.  Otherwise
the call fails `Underpriced`, the state (including the incumbent) is
unchanged, and the incremental-state insertion is the identity. -/
theorem add_transaction_occupied_slot (st : PoolState) (tx inc : PoolTx)
    (hu : slotsUnique st.txs)
    (hf : findSlot st.txs tx.sender tx.nonce = some inc) :
    (ranksHigher tx inc = true →
      add_transaction st.txs tx = Except.ok (tx :: st.txs.erase inc) ∧
      (st.addTx tx).txs = tx :: st.txs.erase inc ∧
      tx ∈ (st.addTx tx).txs ∧ inc ∉ (st.addTx tx).txs) ∧
    (ranksHigher tx inc = false →
      add_transaction st.txs tx = Except.error AddError.Underpriced ∧
      st.addTx tx = st ∧ inc ∈ st.txs) := by
  have hmem : inc ∈ st.txs := List.mem_of_find?_eq_some hf
  constructor
  · intro hr
    have hne : inc ≠ tx := by
      intro heq
      rw [heq, ranksHigher_irrefl] at hr
      exact Bool.false_ne_true hr
    have hnotin : inc ∉ st.txs.erase inc :=
      (slotsUnique_nodup hu).not_mem_erase
    refine ⟨?_, ?_, ?_, ?_⟩
    · simp [add_transaction, hf, hr]
    · simp [PoolState.addTx, hf, hr]
    · simp [PoolState.addTx, hf, hr]
    · simp only [PoolState.addTx, hf, hr, if_true]
      intro hc
      rcases List.mem_cons.1 hc with heq | hc
      · exact hne heq
      · exact hnotin hc
  · intro hr
    refine ⟨?_, ?_, hmem⟩
    · simp [add_transaction, hf, hr]
    · simp [PoolState.addTx, hf, hr]

/-- Witness for C4 (spec §8 Scenario C): nonce 5 of sender 1 is occupied by
a rank-10 transaction; a competing rank-20 transaction ranks strictly
higher, so it replaces the incumbent, while a rank-5 one is rejected
`Underpriced` with the state unchanged. -/
theorem add_transaction_occupied_slot_witness :
    slotsUnique [⟨1, 5, 100, 10, 0⟩] ∧
    findSlot [⟨1, 5, 100, 10, 0⟩] 1 5 = some ⟨1, 5, 100, 10, 0⟩ ∧
    ((ranksHigher ⟨1, 5, 100, 20, 1⟩ ⟨1, 5, 100, 10, 0⟩ = true →
      add_transaction [⟨1, 5, 100, 10, 0⟩] ⟨1, 5, 100, 20, 1⟩ =
        Except.ok [⟨1, 5, 100, 20, 1⟩] ∧
      ((⟨[⟨1, 5, 100, 10, 0⟩], 1, 100⟩ : PoolState).addTx ⟨1, 5, 100, 20, 1⟩).txs =
        [⟨1, 5, 100, 20, 1⟩] ∧
      (⟨1, 5, 100, 20, 1⟩ : PoolTx) ∈
        ((⟨[⟨1, 5, 100, 10, 0⟩], 1, 100⟩ : PoolState).addTx ⟨1, 5, 100, 20, 1⟩).txs ∧
      (⟨1, 5, 100, 10, 0⟩ : PoolTx) ∉
        ((⟨[⟨1, 5, 100, 10, 0⟩], 1, 100⟩ : PoolState).addTx ⟨1, 5, 100, 20, 1⟩).txs) ∧
    (ranksHigher ⟨1, 5, 100, 20, 1⟩ ⟨1, 5, 100, 10, 0⟩ = false →
      add_transaction [⟨1, 5, 100, 10, 0⟩] ⟨1, 5, 100, 20, 1⟩ =
        Except.error AddError.Underpriced ∧
      (⟨[⟨1, 5, 100, 10, 0⟩], 1, 100⟩ : PoolState).addTx ⟨1, 5, 100, 20, 1⟩ =
        ⟨[⟨1, 5, 100, 10, 0⟩], 1, 100⟩ ∧
      (⟨1, 5, 100, 10, 0⟩ : PoolTx) ∈ [(⟨1, 5, 100, 10, 0⟩ : PoolTx)])) :=
  ⟨by decide, by decide,
    by
      have h := add_transaction_occupied_slot ⟨[⟨1, 5, 100, 10, 0⟩], 1, 100⟩
        ⟨1, 5, 100, 20, 1⟩ ⟨1, 5, 100, 10, 0⟩ (by decide) (by decide)
      simpa using h⟩

/-! ## Benchmark transaction generation (`benches/truncate.rs`) -/

/-- The transaction kinds of `MockTransaction` relevant to the generator:
legacy, eip-2930 (access list), eip-1559 (fee market), eip-4844 (blob). -/
inductive TxKind where
  | legacy
  | eip2930
  | eip1559
  | eip4844
deriving DecidableEq, Repr

/-- The fields of a `MockTransaction` the benchmark generator touches:
kind, sender, nonce and the two eip-1559 fee fields. -/
structure MockTransaction where
  kind : TxKind
  sender : Nat
  nonce : Nat
  priorityFee : Nat
  maxFee : Nat
deriving DecidableEq, Repr

/-- Modelled from the spec: proptest's `TestRng` (ChaCha algorithm) is an
external library; it is modelled as a deterministic pseudo-random state
machine — a 64-bit congruential step — seeded from an explicit value.  All
that the claims use is that it is a pure function of its seed. -/
structure TestRng where
  state : Nat
deriving DecidableEq, Repr

def rngNext (r : TestRng) : Nat × TestRng :=
  let s := (6364136223846793005 * r.state + 1442695040888963407) % 2 ^ 64
  (s, ⟨s⟩)

def rngOfSeed (seed : Nat) : TestRng :=
  ⟨seed % 2 ^ 64⟩

/-- The fixed 32-byte seed of `benches/truncate.rs` (`SEED`). -/
def SEED : Nat :=
  0x1337133713371337133713371337133713371337133713371337133713371337

/-- Modelled from the spec: proptest's `any::<usize>()` draw. -/
def genUsize (r : TestRng) : Nat × TestRng :=
  rngNext r

/-- Modelled from the spec: proptest's `any::<u128>()` draw, reduced into
the u128 range. -/
def genU128 (r : TestRng) : Nat × TestRng :=
  let (v, r1) := rngNext r
  (v % 2 ^ 128, r1)

def genTxKind (n : Nat) : TxKind :=
  match n % 4 with
  | 0 => TxKind.legacy
  | 1 => TxKind.eip2930
  | 2 => TxKind.eip1559
  | _ => TxKind.eip4844

/-- Modelled from the spec: proptest's `any::<MockTransaction>()` draw —
an arbitrary kind and arbitrary field values derived from the rng. -/
def genMockTransaction (r : TestRng) : MockTransaction × TestRng :=
  let (k, r1) := rngNext r
  let (s, r2) := rngNext r1
  let (n, r3) := rngNext r2
  let (p, r4) := genU128 r3
  let (m, r5) := genU128 r4
  (⟨genTxKind k, s, n, p, m⟩, r5)

/-- Modelled from the spec: `prop::collection::vec(any::<MockTransaction>(), depth)`. -/
def genVecMockTransaction : Nat → TestRng → List MockTransaction × TestRng
  | 0, r => ([], r)
  | Nat.succ n, r =>
    let (tx, r1) := genMockTransaction r
    let (rest, r2) := genVecMockTransaction n r1
    (tx :: rest, r2)

/-- The constructor `MockTransaction::eip1559()`: a fresh fee-market transaction. -/
def eip1559Default : MockTransaction :=
  ⟨TxKind.eip1559, 0, 0, 0, 0⟩

/-- The body of the per-transaction fix-up in `create_transactions_for_sender`:
a legacy or eip-2930 transaction is replaced by a fresh eip-1559 one whose
fee values are drawn from the runner. -/
def fixTx (r : TestRng) (tx : MockTransaction) : MockTransaction × TestRng :=
  if tx.kind = TxKind.legacy ∨ tx.kind = TxKind.eip2930 then
    let (p, r1) := genU128 r
    let (m, r2) := genU128 r1
    ({ eip1559Default with priorityFee := p, maxFee := m }, r2)
  else (tx, r)

/-- The enumerate loop of `create_transactions_for_sender`: fix up each
generated transaction, then set its sender and its nonce to its index. -/
def fixTxs (sender : Nat) : Nat → TestRng → List MockTransaction → List MockTransaction × TestRng
  | _, r, [] => ([], r)
  | nonce, r, tx :: rest =>
    let (tx1, r1) := fixTx r tx
    let tx2 := { tx1 with sender := sender, nonce := nonce }
    let (rest2, r2) := fixTxs sender (nonce + 1) r1 rest
    (tx2 :: rest2, r2)

/-- The function `create_transactions_for_sender(runner, sender, depth)` from
`benches/truncate.rs`: asserts `depth > 0` (modelled as `none` — the Rust
function panics at depth 0), generates `depth` arbitrary transactions, and
rewrites each one to carry the given sender and its index as nonce,
replacing pre-eip-1559 kinds by eip-1559. -/
def create_transactions_for_sender (r : TestRng) (sender : Nat) (depth : Nat) :
    Option (List MockTransaction) :=
  if depth = 0 then none
  else
    let (txs, r1) := genVecMockTransaction depth r
    some (fixTxs sender 0 r1 txs).1

/-- The sender loop of `generate_many_transactions`: for each sender index,
draw `depth = any::<usize>() % max_depth + 1` from the main runner, then
generate that sender's transactions from a clone of the runner (the clone
leaves the main runner untouched). -/
def genManyGo (max_depth : Nat) : Nat → Nat → TestRng → List MockTransaction
  | _, 0, _ => []
  | idx, Nat.succ remaining, r =>
    let (d, r1) := genUsize r
    let depth := d % max_depth + 1
    let txs := (create_transactions_for_sender r1 idx depth).getD []
    txs ++ genManyGo max_depth (idx + 1) remaining r1

/-- The function `generate_many_transactions(senders, max_depth)` from
`benches/truncate.rs`: the runner is seeded with the fixed constant `SEED`,
never with ambient entropy — the unused `entropy` argument models whatever
ambient randomness a caller could have supplied instead.  `max_depth = 0`
makes the Rust `% max_depth` panic, modelled as `none`. -/
def generate_many_transactions (entropy : Nat) (senders max_depth : Nat) :
    Option (List MockTransaction) :=
  if max_depth = 0 then none
  else some (genManyGo max_depth 0 senders (rngOfSeed SEED))

/-- C7: benchmark transaction generation is deterministic — for any
`max_depth > 0`, two calls to `generate_many_transactions` with the same
`(senders, max_depth)` return identical transaction vectors, whatever
ambient entropy each call could draw on, because the generator is seeded
with the fixed constant `SEED`. -/
theorem generate_many_transactions_deterministic
    (entropy1 entropy2 senders max_depth : Nat) (h : 0 < max_depth) :
    generate_many_transactions entropy1 senders max_depth =
      generate_many_transactions entropy2 senders max_depth := rfl

/-- Witness for C7 at two distinct entropies and concrete arguments. -/
theorem generate_many_transactions_deterministic_witness :
    0 < 3 ∧
    generate_many_transactions 0 2 3 = generate_many_transactions 99 2 3 :=
  ⟨by decide, generate_many_transactions_deterministic 0 99 2 3 (by decide)⟩

theorem genVecMockTransaction_length :
    ∀ (n : Nat) (r : TestRng), (genVecMockTransaction n r).1.length = n := by
  intro n
  induction n with
  | zero => intro r; rfl
  | succ k ih =>
    intro r
    simp only [genVecMockTransaction]
    simp [ih]

theorem fixTx_kind (r : TestRng) (tx : MockTransaction) :
    (fixTx r tx).1.kind ≠ TxKind.legacy ∧ (fixTx r tx).1.kind ≠ TxKind.eip2930 := by
  by_cases hc : tx.kind = TxKind.legacy ∨ tx.kind = TxKind.eip2930
  · simp only [fixTx, if_pos hc]
    exact ⟨by simp [eip1559Default], by simp [eip1559Default]⟩
  · push_neg at hc
    simp only [fixTx, if_neg (by tauto : ¬(tx.kind = TxKind.legacy ∨ tx.kind = TxKind.eip2930))]
    exact hc

theorem fixTxs_spec (sender : Nat) :
    ∀ (txs : List MockTransaction) (n0 : Nat) (r : TestRng),
      (fixTxs sender n0 r txs).1.length = txs.length ∧
      (fixTxs sender n0 r txs).1.map (fun t => t.nonce) = List.range' n0 txs.length ∧
      ∀ t ∈ (fixTxs sender n0 r txs).1,
        t.sender = sender ∧ t.kind ≠ TxKind.legacy ∧ t.kind ≠ TxKind.eip2930 := by
  intro txs
  induction txs with
  | nil =>
    intro n0 r
    refine ⟨rfl, rfl, ?_⟩
    intro t ht
    simp [fixTxs] at ht
  | cons tx rest ih =>
    intro n0 r
    obtain ⟨ihlen, ihmap, ihall⟩ := ih (n0 + 1) (fixTx r tx).2
    simp only [fixTxs]
    refine ⟨?_, ?_, ?_⟩
    · simp [ihlen]
    · simp only [List.map_cons, List.length_cons, List.range'_succ]
      exact congrArg (n0 :: ·) ihmap
    · intro t ht
      rcases List.mem_cons.1 ht with rfl | ht
      · exact ⟨rfl, (fixTx_kind r tx).1, (fixTx_kind r tx).2⟩
      · exact ihall t ht

/-- C9: for every `depth > 0`, `create_transactions_for_sender` returns
exactly `depth` transactions whose nonces are the contiguous run
`0..depth-1` (the transaction at index `i` carries nonce `i`), all carrying
the requested sender and none of the legacy or eip-2930 kind; at
`depth = 0` the function's assertion fires (modelled as `none`). -/
theorem create_transactions_for_sender_spec (r : TestRng) (sender depth : Nat)
    (h : 0 < depth) :
    create_transactions_for_sender r sender 0 = none ∧
    ∃ out, create_transactions_for_sender r sender depth = some out ∧
      out.length = depth ∧
      out.map (fun t => t.nonce) = List.range depth ∧
      ∀ t ∈ out, t.sender = sender ∧ t.kind ≠ TxKind.legacy ∧ t.kind ≠ TxKind.eip2930 := by
  constructor
  · rfl
  · have hdepth : depth ≠ 0 := Nat.pos_iff_ne_zero.1 h
    refine ⟨(fixTxs sender 0 (genVecMockTransaction depth r).2
      (genVecMockTransaction depth r).1).1, ?_, ?_, ?_, ?_⟩
    · simp [create_transactions_for_sender, hdepth]
    · rw [(fixTxs_spec sender _ 0 _).1, genVecMockTransaction_length]
    · rw [(fixTxs_spec sender _ 0 _).2.1, genVecMockTransaction_length,
        List.range_eq_range']
    · exact (fixTxs_spec sender _ 0 _).2.2

/-- Witness for C9 at depth 2 with the benchmark's seed. -/
theorem create_transactions_for_sender_spec_witness :
    0 < 2 ∧
    (create_transactions_for_sender (rngOfSeed SEED) 7 0 = none ∧
      ∃ out, create_transactions_for_sender (rngOfSeed SEED) 7 2 = some out ∧
        out.length = 2 ∧
        out.map (fun t => t.nonce) = List.range 2 ∧
        ∀ t ∈ out, t.sender = 7 ∧ t.kind ≠ TxKind.legacy ∧ t.kind ≠ TxKind.eip2930) :=
  ⟨by decide, create_transactions_for_sender_spec (rngOfSeed SEED) 7 2 (by decide)⟩

/-! ## Test wallet derivation (`e2e-test-utils/src/wallet.rs`) -/

/-- Modelled from the spec: alloy's `PrivateKeySigner` built by
`MnemonicBuilder` is external key-derivation code; a signer is modelled as
the deterministic function of exactly the inputs the builder derives it
from — the mnemonic phrase, the derivation path, and the chain id. -/
structure PrivateKeySigner where
  mnemonic : String
  path : String
  chainId : Option Nat
deriving DecidableEq, Repr

def buildSigner (phrase path : String) (chainId : Option Nat) : PrivateKeySigner :=
  ⟨phrase, path, chainId⟩

/-- The predefined test mnemonic (`TEST_MNEMONIC` in `wallet.rs`). -/
def TEST_MNEMONIC : String :=
  "test test test test test test test test test test test junk"

/-- The default derivation path used when none is set
(`"m/44'/60'/0'/0/"`). -/
def defaultDerivationPath : String :=
  "m/44\x27/60\x27/0\x27/0/"

/-- The `Wallet` struct of `wallet.rs`. -/
structure Wallet where
  inner : PrivateKeySigner
  inner_nonce : Nat
  chain_id : Nat
  amount : Nat
  derivation_path : Option String
deriving DecidableEq, Repr

/-- The constructor `Wallet::new(amount)`: builds the inner signer from the test mnemonic,
chain id 1, no explicit derivation path. -/
def Wallet.new (amount : Nat) : Wallet :=
  ⟨buildSigner TEST_MNEMONIC (defaultDerivationPath ++ toString 0) none, 0, 1, amount, none⟩

/-- The builder method `Wallet::with_chain_id`. -/
def Wallet.with_chain_id (w : Wallet) (chain_id : Nat) : Wallet :=
  { w with chain_id := chain_id }

/-- The method `Wallet::get_derivation_path`: the set derivation path or the default. -/
def Wallet.get_derivation_path (w : Wallet) : String :=
  w.derivation_path.getD defaultDerivationPath

/-- The method `Wallet::gen(&self)`: derives `amount` signers from the fixed test
mnemonic, the derivation path indexed by position, and the wallet's chain
id.  The receiver is `&self`; the method is modelled as a state
transformer returning the (unchanged) wallet together with the signers. -/
def Wallet.gen (w : Wallet) : Wallet × List PrivateKeySigner :=
  (w, (List.range w.amount).map
    (fun idx => buildSigner TEST_MNEMONIC (w.get_derivation_path ++ toString idx)
      (some w.chain_id)))

/-- C8: `Wallet::gen` is pure and deterministic — it leaves the wallet
unchanged, returns exactly `amount` signers, and two wallets agreeing on
amount, chain id and derivation path yield equal signer lists (the result
is independent of `inner` and `inner_nonce`). -/
theorem wallet_gen_pure_deterministic (w w2 : Wallet)
    (ha : w.amount = w2.amount) (hc : w.chain_id = w2.chain_id)
    (hd : w.derivation_path = w2.derivation_path) :
    (w.gen).1 = w ∧ (w.gen).2.length = w.amount ∧ (w.gen).2 = (w2.gen).2 := by
  refine ⟨rfl, by simp [Wallet.gen], ?_⟩
  simp [Wallet.gen, Wallet.get_derivation_path, ha, hc, hd]

/-- Witness for C8: two wallets differing only in their nonce bookkeeping
produce the same signers. -/
theorem wallet_gen_pure_deterministic_witness :
    (Wallet.new 2).amount = { Wallet.new 2 with inner_nonce := 5 }.amount ∧
    (Wallet.new 2).chain_id = { Wallet.new 2 with inner_nonce := 5 }.chain_id ∧
    (Wallet.new 2).derivation_path = { Wallet.new 2 with inner_nonce := 5 }.derivation_path ∧
    (((Wallet.new 2).gen).1 = Wallet.new 2 ∧
      ((Wallet.new 2).gen).2.length = (Wallet.new 2).amount ∧
      ((Wallet.new 2).gen).2 = (({ Wallet.new 2 with inner_nonce := 5 } : Wallet).gen).2) :=
  ⟨rfl, rfl, rfl,
    wallet_gen_pure_deterministic (Wallet.new 2) { Wallet.new 2 with inner_nonce := 5 }
      rfl rfl rfl⟩

/-! ## Ethereum hardfork helpers (`ethereum-forks/src/hardforks/ethereum.rs`) -/

/-- The Ethereum hardforks named by the trait's convenience methods. -/
inductive EthereumHardfork where
  | Homestead
  | SpuriousDragon
  | Byzantium
  | Paris
  | Shanghai
  | Cancun
  | Prague
deriving DecidableEq, Repr

/-- The enum `ForkCondition`: how a hardfork activates — at a block number, at a
timestamp, at a total terminal difficulty (with an optionally known fork
block), or never. -/
inductive ForkCondition where
  | Block (block : Nat)
  | Timestamp (time : Nat)
  | TTD (fork_block : Option Nat) (total_difficulty : Nat)
  | Never
deriving DecidableEq, Repr

/-- The trait method `is_paris_active_at_block(block_number)` from
`hardforks/ethereum.rs`: the chain's fork registry is the `fork` lookup of
the `Hardforks` trait, modelled as a function from hardfork to
`ForkCondition`. -/
def is_paris_active_at_block (forks : EthereumHardfork → ForkCondition)
    (block_number : Nat) : Option Bool :=
  match forks EthereumHardfork.Paris with
  | ForkCondition.Block paris_block => some (decide (block_number ≥ paris_block))
  | ForkCondition.TTD fork_block _ =>
    fork_block.map (fun paris_block => decide (block_number ≥ paris_block))
  | _ => none

/-- The claim's reading of the Paris activation rule: the block at which
Paris is known to activate — present exactly when the registered condition
is a `Block` condition or a `TTD` condition with a known fork block. -/
def parisKnownBlock : ForkCondition → Option Nat
  | ForkCondition.Block b => some b
  | ForkCondition.TTD fb _ => fb
  | _ => none

/-- C10: `is_paris_active_at_block` returns `some` exactly when the
registered Paris condition is a `Block` condition or a `TTD` condition
with a known fork block, and in that case the answer is whether
`block_number` is at least that known Paris block; otherwise it returns
`none`. -/
theorem is_paris_active_at_block_spec (forks : EthereumHardfork → ForkCondition)
    (block_number : Nat) :
    is_paris_active_at_block forks block_number =
      (parisKnownBlock (forks EthereumHardfork.Paris)).map
        (fun paris_block => decide (block_number ≥ paris_block)) ∧
    ((is_paris_active_at_block forks block_number).isSome ↔
      (parisKnownBlock (forks EthereumHardfork.Paris)).isSome) := by
  constructor
  · cases hp : forks EthereumHardfork.Paris with
    | Block b => simp [is_paris_active_at_block, parisKnownBlock, hp]
    | Timestamp t => simp [is_paris_active_at_block, parisKnownBlock, hp]
    | TTD fb td => cases fb <;> simp [is_paris_active_at_block, parisKnownBlock, hp]
    | Never => simp [is_paris_active_at_block, parisKnownBlock, hp]
  · cases hp : forks EthereumHardfork.Paris with
    | Block b => simp [is_paris_active_at_block, parisKnownBlock, hp]
    | Timestamp t => simp [is_paris_active_at_block, parisKnownBlock, hp]
    | TTD fb td => cases fb <;> simp [is_paris_active_at_block, parisKnownBlock, hp]
    | Never => simp [is_paris_active_at_block, parisKnownBlock, hp]

end Blockchain24
